import Mathlib

/-!
Shallow embedding of the Sudoku solver of this repository
(class SudokuMap and class SudokuSolver in src/0_Test/main.cpp),
with proofs about the grid model, the candidate-validity check and the
recursive depth-first search.

Machine integers are modelled as Int / Nat (all quantities involved stay
far below any overflow bound: coordinates and candidate values are at most
the dimension N). The fallible vector accesses through std::vector::at are
modelled with Option. The OpenMP-parallel branch of SudokuSolver::run is
modelled by the relation RunRel, which leaves the winner of the race among
sibling tasks nondeterministic; the sequential execution is the function
runF.
-/

/-- Board storage of the C++ class SudokuMap<SudokuDimension>: the flat
element vector. The dimension N mirrors the template parameter. -/
structure SudokuMap (N : Nat) where
  elements : List Int
deriving DecidableEq, Repr

/-- Model of the SudokuMap constructor: it throws a runtime_error (the
DimensionMismatch condition) when the number of supplied elements differs
from SudokuDimension squared, and stores the elements unchanged otherwise.
Failure is modelled as none. -/
def SudokuMap.make (N : Nat) (elements : List Int) : Option (SudokuMap N) :=
  if elements.length = N * N then some ⟨elements⟩ else none

/-- Faithful model of SudokuMap::getElem: reads elements_.at(x + y * N);
std::vector::at throws std::out_of_range (the OutOfRange condition) exactly
when the flat index is not below the vector length, modelled as none. -/
def SudokuMap.getElem? (g : SudokuMap N) (x y : Nat) : Option Int :=
  g.elements[x + y * N]?

/-- Faithful model of SudokuMap::setElem: writes elements_.at(x + y * N);
std::vector::at throws exactly when the flat index is out of range,
modelled as none. -/
def SudokuMap.setElem? (g : SudokuMap N) (x y : Nat) (i : Int) : Option (SudokuMap N) :=
  if x + y * N < g.elements.length then some ⟨g.elements.set (x + y * N) i⟩ else none

/-- Total read access used inside the solver embedding. Every access the
solver performs is within bounds on a well-formed map (x < N, y < N and
length = N * N), where this function agrees with the Option-valued
SudokuMap.getElem? (see getElem?_eq_some_getElem). -/
def SudokuMap.getElem (g : SudokuMap N) (x y : Nat) : Int :=
  g.elements.getD (x + y * N) 0

/-- Total write access used inside the solver embedding; agrees with
SudokuMap.setElem? on in-bounds indices (List.set is the identity out of
range, while the solver only ever writes in range). -/
def SudokuMap.setElem (g : SudokuMap N) (x y : Nat) (i : Int) : SudokuMap N :=
  ⟨g.elements.set (x + y * N) i⟩

/-- Helper for sqrtN: the largest k below the first argument with
k * k ≤ n, by downward scan. -/
def sqrtAux (b n : Nat) : Nat :=
  match b with
  | 0 => 0
  | b + 1 => if (b + 1) * (b + 1) ≤ n then b + 1 else sqrtAux b n

/-- Integer square root, modelling the C++ constexpr int subgridSize =
std::sqrt(SudokuDimension): the floor of the real square root (exact on the
perfect-square dimensions the solver is instantiated at). Defined by
structural recursion so that concrete instances evaluate in the kernel. -/
def sqrtN (n : Nat) : Nat := sqrtAux n n

/-- Direct translation of SudokuMap::isCandidate. Three scans: the line of
cells sharing coordinate x (the first C++ loop reads getElem(x, col)), the
line of cells sharing coordinate y (the second loop reads getElem(row, y)),
and the sqrt(N) × sqrt(N) sub-block whose start along each axis is
(coord / sqrt(N)) * sqrt(N). The C++ returns false on the first cell found
holding value, true when no scan finds it. -/
def SudokuMap.isCandidate (g : SudokuMap N) (x y : Nat) (value : Int) : Bool :=
  ((List.range N).all fun col => g.getElem x col != value) &&
  ((List.range N).all fun row => g.getElem row y != value) &&
  ((List.range' ((x / sqrtN N) * sqrtN N) (sqrtN N)).all fun row =>
    (List.range' ((y / sqrtN N) * sqrtN N) (sqrtN N)).all fun col =>
      g.getElem row col != value)

/-- Candidate values tried by SudokuSolver::run: i = 1, ..., SudokuDimension
in ascending order. -/
def candList (N : Nat) : List Nat := List.range' 1 N

/-- Sequential candidate loop of SudokuSolver::run (the for-loop of its
else-branch): for each candidate value in order, if isCandidate accepts it,
place it on a copy of the grid and recurse; the first non-null sub-solution
is returned at once, null when every candidate fails. rec is the recursive
call at the next cell. -/
def tryCands (g : SudokuMap N) (x y : Nat)
    (rec : SudokuMap N → Option (SudokuMap N)) : List Nat → Option (SudokuMap N)
  | [] => none
  | i :: rest =>
    if g.isCandidate x y (i : Int) then
      match rec (g.setElem x y (i : Int)) with
      | some s => some s
      | none => tryCands g x y rec rest
    else tryCands g x y rec rest

/-- Steps of the row-major scan remaining from position (x, y); used as the
fuel bound making the recursion of runF structural. -/
def mu (N x y : Nat) : Nat := (N - y) * (N + 1) + (N - x)

/-- Fuel sufficient for a run from the initial scan position (0, 0):
fuelFor N = mu N 0 0 + 1. -/
def fuelFor (N : Nat) : Nat := N * (N + 1) + N + 1

/-- Embedding of the sequential execution of SudokuSolver::run (the
execution in which the test depth < maxParallelizationDepth_ always fails,
which is exactly what happens at every level whenever
maxParallelizationDepth ≤ 1, since depth starts at 1 and never decreases).
Advance: if x is beyond the last column move to the next row, and if y is
then also beyond the last row the puzzle is solved and a copy of the grid
is returned. Skip: a pre-filled cell is passed over at the same depth.
Otherwise candidates 1..N are tried in ascending order on a copy of the
grid. The fuel argument only makes the recursion structural; it decreases
by one per recursive call, mu bounds the calls remaining (runF_congr shows
any sufficient fuel gives the same result), and the out-of-fuel value none
is never reached from a call with mu N x y < fuel. -/
def runF (N : Nat) : Nat → SudokuMap N → Nat → Nat → Nat → Option (SudokuMap N)
  | 0, _, _, _, _ => none
  | fuel + 1, g, x, y, depth =>
    if N ≤ x then
      if N ≤ y + 1 then some g
      else runF N fuel g 0 (y + 1) depth
    else if g.getElem x y ≠ 0 then
      runF N fuel g (x + 1) y depth
    else
      tryCands g x y (fun g2 => runF N fuel g2 (x + 1) y (depth + 1)) (candList N)

/-- Top-level sequential call of SudokuSolver::run(sudoku) with the default
arguments x = 0, y = 0, depth = 1, as invoked by SudokuSolverTest::Run. -/
def runTop (N : Nat) (g : SudokuMap N) : Option (SudokuMap N) :=
  runF N (fuelFor N) g 0 0 1

/-- Pipeline of SudokuSolverTest::Run: construct the SudokuMap (a
dimension mismatch surfaces here, before any search step), then run the
solver from the initial position. -/
def solveList (N : Nat) (l : List Int) : Option (Option (SudokuMap N)) :=
  (SudokuMap.make N l).map (runTop N)

/-- Relational model of SudokuSolver::run including the OpenMP-parallel
branch, with PD = maxParallelizationDepth_. RunRel N PD g x y d r holds when
some execution of run(g, x, y, d) can return r. In the parallel branch
(d < PD) one task per legal candidate runs on its own firstprivate copy of
the grid and the first solution published to the shared slot wins, so the
result is the sub-solution of an arbitrary successful candidate, and none
exactly when every candidate task fails. In the sequential branch (PD ≤ d)
candidates are tried in ascending order and the first success is returned,
so a successful candidate is preceded only by failing ones. -/
inductive RunRel (N PD : Nat) : SudokuMap N → Nat → Nat → Nat → Option (SudokuMap N) → Prop where
  | solved : N ≤ x → N ≤ y + 1 → RunRel N PD g x y d (some g)
  | advance : N ≤ x → y + 1 < N → RunRel N PD g 0 (y + 1) d r → RunRel N PD g x y d r
  | skip : x < N → g.getElem x y ≠ 0 → RunRel N PD g (x + 1) y d r → RunRel N PD g x y d r
  | parFound : x < N → g.getElem x y = 0 → d < PD → 1 ≤ i → i ≤ N →
      g.isCandidate x y (i : Int) = true →
      RunRel N PD (g.setElem x y (i : Int)) (x + 1) y (d + 1) (some s) →
      RunRel N PD g x y d (some s)
  | parNone : x < N → g.getElem x y = 0 → d < PD →
      (∀ i : Nat, 1 ≤ i → i ≤ N → g.isCandidate x y (i : Int) = true →
        RunRel N PD (g.setElem x y (i : Int)) (x + 1) y (d + 1) none) →
      RunRel N PD g x y d none
  | seqFound : x < N → g.getElem x y = 0 → PD ≤ d → 1 ≤ i → i ≤ N →
      g.isCandidate x y (i : Int) = true →
      (∀ j : Nat, 1 ≤ j → j < i → g.isCandidate x y (j : Int) = true →
        RunRel N PD (g.setElem x y (j : Int)) (x + 1) y (d + 1) none) →
      RunRel N PD (g.setElem x y (i : Int)) (x + 1) y (d + 1) (some s) →
      RunRel N PD g x y d (some s)
  | seqNone : x < N → g.getElem x y = 0 → PD ≤ d →
      (∀ i : Nat, 1 ≤ i → i ≤ N → g.isCandidate x y (i : Int) = true →
        RunRel N PD (g.setElem x y (i : Int)) (x + 1) y (d + 1) none) →
      RunRel N PD g x y d none

/-- State-aware embedding of the sequential execution of SudokuSolver::run
(the execution in which the depth < maxParallelizationDepth_ test always
fails, exactly as in runF): the C++ run receives the grid by reference,
and the returned pair is (result, value of the caller-visible argument
object when run returns). The advance and skip paths forward the same
reference, so the post-state is the callee's; the sequential candidate
loop copies into newSudoku before placing a value, so the argument object
itself is never written there. The state-aware model of the full
behaviour, parallel branch included, is the relation RunRelSt below. -/
def runFSt (N : Nat) : Nat → SudokuMap N → Nat → Nat → Nat →
    Option (SudokuMap N) × SudokuMap N
  | 0, g, _, _, _ => (none, g)
  | fuel + 1, g, x, y, depth =>
    if N ≤ x then
      if N ≤ y + 1 then (some g, g)
      else runFSt N fuel g 0 (y + 1) depth
    else if g.getElem x y ≠ 0 then
      runFSt N fuel g (x + 1) y depth
    else
      (tryCands g x y (fun g2 => (runFSt N fuel g2 (x + 1) y (depth + 1)).1)
        (candList N), g)

/-- State-aware relational model of SudokuSolver::run covering both the
OpenMP-parallel branch (d < PD) and the sequential branch (PD ≤ d), with
PD = maxParallelizationDepth_. RunRelSt N PD g x y d r g2 holds when some
execution of run(g, x, y, d) can return r while leaving the caller-visible
by-reference argument object holding g2 when the call returns. The solved
case performs no write, so the argument keeps its value g. The advance and
skip cases forward the same reference to the recursive call, so the
post-state is the callee's post-state. In the parallel branch every task
receives its own firstprivate copy of the grid, calls setElem on that copy
and runs recursively on it by reference; the final states of those copies
(gi for the winning task, post i for each task of a failed fan-out) are
recorded but the parent's argument is never written, so its post-state is
g. In the sequential branch each iteration copies the grid into the local
newSudoku, places the candidate there and recurses on newSudoku by
reference (final state post j, or gi for the returned success), so again
the caller's argument ends unchanged at g. -/
inductive RunRelSt (N PD : Nat) :
    SudokuMap N → Nat → Nat → Nat → Option (SudokuMap N) → SudokuMap N → Prop where
  | solved : ∀ {x y d : Nat} {g : SudokuMap N},
      N ≤ x → N ≤ y + 1 → RunRelSt N PD g x y d (some g) g
  | advance : ∀ {x y d : Nat} {g g2 : SudokuMap N} {r : Option (SudokuMap N)},
      N ≤ x → y + 1 < N → RunRelSt N PD g 0 (y + 1) d r g2 →
      RunRelSt N PD g x y d r g2
  | skip : ∀ {x y d : Nat} {g g2 : SudokuMap N} {r : Option (SudokuMap N)},
      x < N → g.getElem x y ≠ 0 → RunRelSt N PD g (x + 1) y d r g2 →
      RunRelSt N PD g x y d r g2
  | parFound : ∀ {x y d i : Nat} {g s gi : SudokuMap N},
      x < N → g.getElem x y = 0 → d < PD → 1 ≤ i → i ≤ N →
      g.isCandidate x y (i : Int) = true →
      RunRelSt N PD (g.setElem x y (i : Int)) (x + 1) y (d + 1) (some s) gi →
      RunRelSt N PD g x y d (some s) g
  | parNone : ∀ {x y d : Nat} {g : SudokuMap N} {post : Nat → SudokuMap N},
      x < N → g.getElem x y = 0 → d < PD →
      (∀ i : Nat, 1 ≤ i → i ≤ N → g.isCandidate x y (i : Int) = true →
        RunRelSt N PD (g.setElem x y (i : Int)) (x + 1) y (d + 1) none (post i)) →
      RunRelSt N PD g x y d none g
  | seqFound : ∀ {x y d i : Nat} {g s gi : SudokuMap N} {post : Nat → SudokuMap N},
      x < N → g.getElem x y = 0 → PD ≤ d → 1 ≤ i → i ≤ N →
      g.isCandidate x y (i : Int) = true →
      (∀ j : Nat, 1 ≤ j → j < i → g.isCandidate x y (j : Int) = true →
        RunRelSt N PD (g.setElem x y (j : Int)) (x + 1) y (d + 1) none (post j)) →
      RunRelSt N PD (g.setElem x y (i : Int)) (x + 1) y (d + 1) (some s) gi →
      RunRelSt N PD g x y d (some s) g
  | seqNone : ∀ {x y d : Nat} {g : SudokuMap N} {post : Nat → SudokuMap N},
      x < N → g.getElem x y = 0 → PD ≤ d →
      (∀ i : Nat, 1 ≤ i → i ≤ N → g.isCandidate x y (i : Int) = true →
        RunRelSt N PD (g.setElem x y (i : Int)) (x + 1) y (d + 1) none (post i)) →
      RunRelSt N PD g x y d none g

/-- Well-formedness established by the SudokuMap constructor: the flat
vector holds exactly N * N cells. -/
def SudokuMap.Wf (g : SudokuMap N) : Prop := g.elements.length = N * N

/-- Precondition on inputs: every in-range cell value lies in [0, N],
0 meaning empty. -/
def ValuesIn (N : Nat) (g : SudokuMap N) : Prop :=
  ∀ x < N, ∀ y < N, 0 ≤ g.getElem x y ∧ g.getElem x y ≤ (N : Int)

/-- Start of the sub-block containing axis coordinate t, as computed by
isCandidate: (t / sqrt(N)) * sqrt(N). -/
def blockStart (N t : Nat) : Nat := (t / sqrtN N) * sqrtN N

/-- Cells (x1, y1) and (x2, y2) lie in a common unit: the line sharing the
x coordinate, the line sharing the y coordinate, or one sub-block. -/
def SameUnit (N x1 y1 x2 y2 : Nat) : Prop :=
  x1 = x2 ∨ y1 = y2 ∨
    (blockStart N x1 = blockStart N x2 ∧ blockStart N y1 = blockStart N y2)

/-- No value occurs twice among the nonzero in-range cells of any unit
(the lazily-checked invariant the solver maintains for the cells it
fills). -/
def Consistent (N : Nat) (g : SudokuMap N) : Prop :=
  ∀ x1 < N, ∀ y1 < N, ∀ x2 < N, ∀ y2 < N,
    (x1, y1) ≠ (x2, y2) → SameUnit N x1 y1 x2 y2 →
    g.getElem x1 y1 ≠ 0 → g.getElem x1 y1 ≠ g.getElem x2 y2

/-- Values along the line of cells sharing coordinate x. -/
def xLineVals (N : Nat) (g : SudokuMap N) (x : Nat) : List Int :=
  (List.range N).map fun c => g.getElem x c

/-- Values along the line of cells sharing coordinate y. -/
def yLineVals (N : Nat) (g : SudokuMap N) (y : Nat) : List Int :=
  (List.range N).map fun r => g.getElem r y

/-- Values of the sub-block with block indices (b1, b2), i.e. the cells
(b1 * sqrt N + r, b2 * sqrt N + c) for r, c below sqrt N. -/
def blockVals (N : Nat) (g : SudokuMap N) (b1 b2 : Nat) : List Int :=
  (List.range (sqrtN N)).flatMap fun r =>
    (List.range (sqrtN N)).map fun c =>
      g.getElem (b1 * sqrtN N + r) (b2 * sqrtN N + c)

/-- Full validity of a returned grid: each of the N lines sharing an x
coordinate, each of the N lines sharing a y coordinate, and each of the N
sub-blocks contains each value 1..N exactly once. -/
def LinesOk (N : Nat) (g : SudokuMap N) : Prop :=
  (∀ x < N, ∀ v ∈ Finset.Icc (1 : Int) (N : Int), (xLineVals N g x).count v = 1) ∧
  (∀ y < N, ∀ v ∈ Finset.Icc (1 : Int) (N : Int), (yLineVals N g y).count v = 1) ∧
  (∀ b1 < sqrtN N, ∀ b2 < sqrtN N,
    ∀ v ∈ Finset.Icc (1 : Int) (N : Int), (blockVals N g b1 b2).count v = 1)

/-- The result grid s agrees with the input g on every in-range nonzero
(pre-filled) cell: the solver only ever assigns to empty cells. -/
def ExtendsMap (N : Nat) (g s : SudokuMap N) : Prop :=
  ∀ x < N, ∀ y < N, g.getElem x y ≠ 0 → s.getElem x y = g.getElem x y

/-- Every in-range cell at or after scan position (x, y) in row-major
order (increasing y, then increasing x) is nonzero. -/
def FilledFrom (N : Nat) (g : SudokuMap N) (x y : Nat) : Prop :=
  ∀ a < N, ∀ b < N, (y < b ∨ (y = b ∧ x ≤ a)) → g.getElem a b ≠ 0

/-! Decidability of the grid predicates, so that concrete instances can be
checked by evaluation. -/

instance {N : Nat} (g : SudokuMap N) : Decidable g.Wf := by
  unfold SudokuMap.Wf
  infer_instance

instance {N : Nat} (g : SudokuMap N) : Decidable (ValuesIn N g) := by
  unfold ValuesIn
  infer_instance

instance {N x1 y1 x2 y2 : Nat} : Decidable (SameUnit N x1 y1 x2 y2) := by
  unfold SameUnit
  infer_instance

instance {N : Nat} (g : SudokuMap N) : Decidable (Consistent N g) := by
  unfold Consistent
  refine @Nat.decidableBallLT N _ fun x1 h1 => @Nat.decidableBallLT N _ fun y1 h2 =>
    @Nat.decidableBallLT N _ fun x2 h3 => @Nat.decidableBallLT N _ fun y2 h4 => ?_
  infer_instance

instance {N : Nat} (g : SudokuMap N) : Decidable (LinesOk N g) := by
  unfold LinesOk
  infer_instance

instance {N : Nat} (g s : SudokuMap N) : Decidable (ExtendsMap N g s) := by
  unfold ExtendsMap
  infer_instance

instance {N : Nat} (g : SudokuMap N) (x y : Nat) : Decidable (FilledFrom N g x y) := by
  unfold FilledFrom
  infer_instance

/-- Concrete 4-dimensional board holding 1 in every cell: fully pre-filled,
values within [0, 4], but with massive duplicates in every unit. -/
def allOnes4 : SudokuMap 4 := ⟨List.replicate 16 1⟩

/-- Concrete fully and legally filled 4-dimensional board (each line sharing
an x coordinate, each line sharing a y coordinate, and each 2 × 2 sub-block
holds 1..4 exactly once under the x + y * 4 flat layout). -/
def solved4 : SudokuMap 4 := ⟨[1, 2, 3, 4, 3, 4, 1, 2, 2, 1, 4, 3, 4, 3, 2, 1]⟩

/-- Concrete empty 4-dimensional board. -/
def zeros4 : SudokuMap 4 := ⟨List.replicate 16 0⟩

/-! Basic facts about the flat index, the accessors and the fuel bound. -/

theorem flatIdx_lt {N x y : Nat} (hx : x < N) (hy : y < N) : x + y * N < N * N := by
  have h1 : (y + 1) * N = y * N + N := by ring
  have h2 : (y + 1) * N ≤ N * N := Nat.mul_le_mul_right N hy
  omega

theorem flatIdx_inj {N x1 y1 x2 y2 : Nat} (h1 : x1 < N) (h2 : x2 < N)
    (h : x1 + y1 * N = x2 + y2 * N) : x1 = x2 ∧ y1 = y2 := by
  have e1 : (x1 + y1 * N) % N = x1 := by
    rw [Nat.add_mul_mod_self_right]; exact Nat.mod_eq_of_lt h1
  have e2 : (x2 + y2 * N) % N = x2 := by
    rw [Nat.add_mul_mod_self_right]; exact Nat.mod_eq_of_lt h2
  have hx : x1 = x2 := by rw [← e1, ← e2, h]
  refine ⟨hx, ?_⟩
  have hmul : y1 * N = y2 * N := by omega
  exact Nat.eq_of_mul_eq_mul_right (by omega) hmul

theorem getElem_setElem_self {N : Nat} (g : SudokuMap N) {x y : Nat} (v : Int)
    (hWf : g.Wf) (hx : x < N) (hy : y < N) :
    (g.setElem x y v).getElem x y = v := by
  have hlen : x + y * N < g.elements.length := by
    rw [hWf]; exact flatIdx_lt hx hy
  show (g.elements.set (x + y * N) v).getD (x + y * N) 0 = v
  rw [List.getD_eq_getElem _ _ (by simpa using hlen)]
  exact List.getElem_set_self _

theorem getElem_setElem_ne {N : Nat} (g : SudokuMap N) {x y a b : Nat} (v : Int)
    (hx : x < N) (ha : a < N) (hne : (a, b) ≠ (x, y)) :
    (g.setElem x y v).getElem a b = g.getElem a b := by
  show (g.elements.set (x + y * N) v).getD (a + b * N) 0 = g.elements.getD (a + b * N) 0
  have hidx : x + y * N ≠ a + b * N := by
    intro he
    obtain ⟨hxe, hye⟩ := flatIdx_inj hx ha he
    exact hne (by rw [← hxe, ← hye])
  rw [List.getD_eq_getElem?_getD, List.getD_eq_getElem?_getD, List.getElem?_set_ne hidx]

theorem Wf_setElem {N : Nat} (g : SudokuMap N) (x y : Nat) (v : Int) (h : g.Wf) :
    (g.setElem x y v).Wf := by
  show (g.elements.set (x + y * N) v).length = N * N
  rw [List.length_set]; exact h

theorem getElem?_eq_some_getElem {N : Nat} (g : SudokuMap N) {x y : Nat}
    (hWf : g.Wf) (hx : x < N) (hy : y < N) :
    g.getElem? x y = some (g.getElem x y) := by
  have hlen : x + y * N < g.elements.length := by rw [hWf]; exact flatIdx_lt hx hy
  show g.elements[x + y * N]? = some (g.elements.getD (x + y * N) 0)
  rw [List.getElem?_eq_getElem hlen, List.getD_eq_getElem _ _ hlen]

theorem mu_skip {N x y : Nat} (h : x < N) : mu N (x + 1) y + 1 = mu N x y := by
  unfold mu
  generalize (N - y) * (N + 1) = P
  omega

theorem mu_advance {N x y : Nat} (hx : N ≤ x) (hy : y + 1 < N) :
    mu N 0 (y + 1) + 1 = mu N x y := by
  unfold mu
  have h1 : N - y = N - (y + 1) + 1 := by omega
  rw [h1, add_one_mul]
  generalize (N - (y + 1)) * (N + 1) = P
  omega

theorem mu_lt_fuelFor (N x y : Nat) : mu N x y < fuelFor N := by
  unfold mu fuelFor
  have h1 : N - y ≤ N := Nat.sub_le N y
  have h2 : (N - y) * (N + 1) ≤ N * (N + 1) := Nat.mul_le_mul_right _ h1
  omega

/-! Facts about the sequential candidate loop. -/

theorem tryCands_congr {N : Nat} (g : SudokuMap N) (x y : Nat)
    {r1 r2 : SudokuMap N → Option (SudokuMap N)} (h : ∀ g2, r1 g2 = r2 g2)
    (l : List Nat) : tryCands g x y r1 l = tryCands g x y r2 l := by
  have he : r1 = r2 := funext h
  rw [he]

theorem tryCands_eq_none {N : Nat} {g : SudokuMap N} {x y : Nat}
    {rec : SudokuMap N → Option (SudokuMap N)} {l : List Nat}
    (h : tryCands g x y rec l = none) :
    ∀ i ∈ l, g.isCandidate x y (i : Int) = true →
      rec (g.setElem x y (i : Int)) = none := by
  induction l with
  | nil => intro i hi; simp at hi
  | cons a rest ih =>
    intro i hi hc
    simp only [tryCands] at h
    by_cases hca : g.isCandidate x y (a : Int) = true
    · rw [if_pos hca] at h
      cases hr : rec (g.setElem x y (a : Int)) with
      | some s2 => rw [hr] at h; exact absurd h (by simp)
      | none =>
        rw [hr] at h
        rcases List.mem_cons.mp hi with rfl | hmem
        · exact hr
        · exact ih h i hmem hc
    · rw [if_neg hca] at h
      rcases List.mem_cons.mp hi with rfl | hmem
      · exact absurd hc hca
      · exact ih h i hmem hc

theorem tryCands_none_of {N : Nat} {g : SudokuMap N} {x y : Nat}
    {rec : SudokuMap N → Option (SudokuMap N)} {l : List Nat}
    (h : ∀ i ∈ l, g.isCandidate x y (i : Int) = true →
      rec (g.setElem x y (i : Int)) = none) :
    tryCands g x y rec l = none := by
  induction l with
  | nil => rfl
  | cons a rest ih =>
    simp only [tryCands]
    by_cases hca : g.isCandidate x y (a : Int) = true
    · rw [if_pos hca, h a (List.mem_cons_self a rest) hca]
      exact ih fun i hi hc => h i (List.mem_cons_of_mem a hi) hc
    · rw [if_neg hca]
      exact ih fun i hi hc => h i (List.mem_cons_of_mem a hi) hc

theorem tryCands_eq_some {N : Nat} {g : SudokuMap N} {x y : Nat}
    {rec : SudokuMap N → Option (SudokuMap N)} {l : List Nat} {s : SudokuMap N}
    (hsorted : l.Pairwise (· < ·))
    (h : tryCands g x y rec l = some s) :
    ∃ i ∈ l, g.isCandidate x y (i : Int) = true ∧
      rec (g.setElem x y (i : Int)) = some s ∧
      ∀ j ∈ l, j < i → g.isCandidate x y (j : Int) = true →
        rec (g.setElem x y (j : Int)) = none := by
  induction l with
  | nil => simp [tryCands] at h
  | cons a rest ih =>
    rw [List.pairwise_cons] at hsorted
    simp only [tryCands] at h
    by_cases hca : g.isCandidate x y (a : Int) = true
    · rw [if_pos hca] at h
      cases hr : rec (g.setElem x y (a : Int)) with
      | some s2 =>
        rw [hr] at h
        refine ⟨a, List.mem_cons_self a rest, hca, ?_, ?_⟩
        · rw [hr]; simpa using h
        · intro j hj hja _hc
          rcases List.mem_cons.mp hj with rfl | hmem
          · omega
          · exact absurd (hsorted.1 j hmem) (by omega)
      | none =>
        rw [hr] at h
        obtain ⟨i, hi, hci, hri, hbefore⟩ := ih hsorted.2 h
        refine ⟨i, List.mem_cons_of_mem a hi, hci, hri, ?_⟩
        intro j hj hji hcj
        rcases List.mem_cons.mp hj with rfl | hmem
        · exact hr
        · exact hbefore j hmem hji hcj
    · rw [if_neg hca] at h
      obtain ⟨i, hi, hci, hri, hbefore⟩ := ih hsorted.2 h
      refine ⟨i, List.mem_cons_of_mem a hi, hci, hri, ?_⟩
      intro j hj hji hcj
      rcases List.mem_cons.mp hj with rfl | hmem
      · exact absurd hcj hca
      · exact hbefore j hmem hji hcj

theorem tryCands_some_of {N : Nat} {g : SudokuMap N} {x y : Nat}
    {rec : SudokuMap N → Option (SudokuMap N)} {l : List Nat} {s : SudokuMap N} {i : Nat}
    (hsorted : l.Pairwise (· < ·)) (hi : i ∈ l)
    (hc : g.isCandidate x y (i : Int) = true)
    (hs : rec (g.setElem x y (i : Int)) = some s)
    (hbefore : ∀ j ∈ l, j < i → g.isCandidate x y (j : Int) = true →
      rec (g.setElem x y (j : Int)) = none) :
    tryCands g x y rec l = some s := by
  induction l with
  | nil => simp at hi
  | cons a rest ih =>
    rw [List.pairwise_cons] at hsorted
    simp only [tryCands]
    rcases List.mem_cons.mp hi with rfl | hmem
    · rw [if_pos hc, hs]
    · have ha : a < i := hsorted.1 i hmem
      by_cases hca : g.isCandidate x y (a : Int) = true
      · rw [if_pos hca, hbefore a (List.mem_cons_self a rest) ha hca]
        exact ih hsorted.2 hmem fun j hj hji hcj =>
          hbefore j (List.mem_cons_of_mem a hj) hji hcj
      · rw [if_neg hca]
        exact ih hsorted.2 hmem fun j hj hji hcj =>
          hbefore j (List.mem_cons_of_mem a hj) hji hcj

theorem candList_sorted (N : Nat) : (candList N).Pairwise (· < ·) :=
  List.pairwise_lt_range' 1 N

theorem mem_candList {N i : Nat} : i ∈ candList N ↔ 1 ≤ i ∧ i ≤ N := by
  unfold candList
  rw [List.mem_range'_1]
  omega

theorem runF_congr {N : Nat} : ∀ {f1 f2 : Nat} (g : SudokuMap N) (x y d : Nat),
    mu N x y < f1 → mu N x y < f2 → runF N f1 g x y d = runF N f2 g x y d := by
  intro f1
  induction f1 with
  | zero => intro f2 g x y d h1 h2; omega
  | succ n ih =>
    intro f2 g x y d h1 h2
    obtain ⟨m, rfl⟩ : ∃ m, f2 = m + 1 := ⟨f2 - 1, by omega⟩
    simp only [runF]
    by_cases hx : N ≤ x
    · by_cases hy : N ≤ y + 1
      · rw [if_pos hx, if_pos hy, if_pos hx, if_pos hy]
      · rw [if_pos hx, if_neg hy, if_pos hx, if_neg hy]
        have hmu := @mu_advance N x y hx (by omega)
        exact ih g 0 (y + 1) d (by omega) (by omega)
    · rw [if_neg hx, if_neg hx]
      have hmu := @mu_skip N x y (by omega)
      by_cases hz : g.getElem x y = 0
      · rw [if_neg (not_not_intro hz), if_neg (not_not_intro hz)]
        exact tryCands_congr _ _ _
          (fun g2 => ih g2 (x + 1) y (d + 1) (by omega) (by omega)) _
      · rw [if_pos hz, if_pos hz]
        exact ih g (x + 1) y d (by omega) (by omega)

/-! Correspondence between the sequential function runF and the relational
model RunRel: below the parallel cutoff (PD ≤ depth) the code is
sequential, and with PD ≤ 1 every reachable depth is sequential, so the
relation collapses to the function. -/

theorem runRel_of_runF {N PD : Nat} :
    ∀ {fuel : Nat} (g : SudokuMap N) (x y d : Nat), PD ≤ d → mu N x y < fuel →
      RunRel N PD g x y d (runF N fuel g x y d) := by
  intro fuel
  induction fuel with
  | zero => intro g x y d hpd h; omega
  | succ n ih =>
    intro g x y d hpd h
    simp only [runF]
    by_cases hx : N ≤ x
    · by_cases hy : N ≤ y + 1
      · rw [if_pos hx, if_pos hy]; exact RunRel.solved hx hy
      · rw [if_pos hx, if_neg hy]
        have hmu := @mu_advance N x y hx (by omega)
        exact RunRel.advance hx (by omega) (ih g 0 (y + 1) d hpd (by omega))
    · rw [if_neg hx]
      have hmu := @mu_skip N x y (by omega)
      by_cases hz : g.getElem x y = 0
      · rw [if_neg (not_not_intro hz)]
        cases htc : tryCands g x y (fun g2 => runF N n g2 (x + 1) y (d + 1)) (candList N) with
        | none =>
          refine RunRel.seqNone (by omega) hz hpd ?_
          intro i h1i hiN hci
          have hnone := tryCands_eq_none htc i (mem_candList.mpr ⟨h1i, hiN⟩) hci
          have hr := ih (g.setElem x y (i : Int)) (x + 1) y (d + 1) (by omega) (by omega)
          rw [hnone] at hr
          exact hr
        | some s =>
          obtain ⟨i, hi, hci, hri, hbefore⟩ := tryCands_eq_some (candList_sorted N) htc
          obtain ⟨h1i, hiN⟩ := mem_candList.mp hi
          refine RunRel.seqFound (by omega) hz hpd h1i hiN hci ?_ ?_
          · intro j h1j hji hcj
            have hjnone := hbefore j (mem_candList.mpr ⟨h1j, by omega⟩) hji hcj
            have hr := ih (g.setElem x y (j : Int)) (x + 1) y (d + 1) (by omega) (by omega)
            rw [hjnone] at hr
            exact hr
          · have hr := ih (g.setElem x y (i : Int)) (x + 1) y (d + 1) (by omega) (by omega)
            rw [hri] at hr
            exact hr
      · rw [if_pos hz]
        exact RunRel.skip (by omega) hz (ih g (x + 1) y d hpd (by omega))

theorem runRel_eq_runF {N PD : Nat} {g : SudokuMap N} {x y d : Nat}
    {r : Option (SudokuMap N)} (h : RunRel N PD g x y d r) (hPD : PD ≤ 1) :
    1 ≤ d → ∀ fuel : Nat, mu N x y < fuel → r = runF N fuel g x y d := by
  induction h with
  | @solved x2 y2 g2 d2 hx hy =>
    intro _hd fuel hmu
    obtain ⟨n, rfl⟩ : ∃ n, fuel = n + 1 := ⟨fuel - 1, by omega⟩
    simp only [runF]
    rw [if_pos hx, if_pos hy]
  | @advance x2 y2 g2 d2 r2 hx hy _ ih =>
    intro hd fuel hmu
    obtain ⟨n, rfl⟩ : ∃ n, fuel = n + 1 := ⟨fuel - 1, by omega⟩
    simp only [runF]
    rw [if_pos hx, if_neg (by omega)]
    have hmu2 := @mu_advance N x2 y2 hx hy
    exact ih hd n (by omega)
  | @skip x2 g2 y2 d2 r2 hx hz _ ih =>
    intro hd fuel hmu
    obtain ⟨n, rfl⟩ : ∃ n, fuel = n + 1 := ⟨fuel - 1, by omega⟩
    simp only [runF]
    rw [if_neg (by omega), if_pos hz]
    have hmu2 := @mu_skip N x2 y2 hx
    exact ih hd n (by omega)
  | parFound hx hz hdp h1i hiN hci _ _ =>
    intro hd fuel hmu
    omega
  | parNone hx hz hdp _ _ =>
    intro hd fuel hmu
    omega
  | @seqFound x2 d2 i2 y2 s2 g2 hx hz hpd h1i hiN hci _ _ ihbef ihsub =>
    intro hd fuel hmu
    obtain ⟨n, rfl⟩ : ∃ n, fuel = n + 1 := ⟨fuel - 1, by omega⟩
    simp only [runF]
    rw [if_neg (by omega), if_neg (not_not_intro hz)]
    have hmu2 := @mu_skip N x2 y2 hx
    refine (tryCands_some_of (candList_sorted N) (mem_candList.mpr ⟨h1i, hiN⟩) hci ?_ ?_).symm
    · exact (ihsub (by omega) n (by omega)).symm
    · intro j hj hji hcj
      exact (ihbef j (mem_candList.mp hj).1 hji hcj (by omega) n (by omega)).symm
  | @seqNone x2 d2 y2 g2 hx hz hpd _ ih =>
    intro hd fuel hmu
    obtain ⟨n, rfl⟩ : ∃ n, fuel = n + 1 := ⟨fuel - 1, by omega⟩
    simp only [runF]
    rw [if_neg (by omega), if_neg (not_not_intro hz)]
    have hmu2 := @mu_skip N x2 y2 hx
    refine (tryCands_none_of ?_).symm
    intro i hi hci
    obtain ⟨h1i, hiN⟩ := mem_candList.mp hi
    exact (ih i h1i hiN hci (by omega) n (by omega)).symm

/-! Characterization of the candidate check, and facts about sub-block
coordinates. -/

theorem isCandidate_eq_true_iff {N : Nat} (g : SudokuMap N) (x y : Nat) (v : Int) :
    g.isCandidate x y v = true ↔
      ((∀ c < N, g.getElem x c ≠ v) ∧ (∀ r < N, g.getElem r y ≠ v) ∧
        (∀ r c : Nat, blockStart N x ≤ r → r < blockStart N x + sqrtN N →
          blockStart N y ≤ c → c < blockStart N y + sqrtN N → g.getElem r c ≠ v)) := by
  unfold SudokuMap.isCandidate blockStart
  simp only [Bool.and_eq_true, List.all_eq_true, List.mem_range, List.mem_range'_1,
    bne_iff_ne, ne_eq, and_imp]
  constructor
  · rintro ⟨⟨h1, h2⟩, h3⟩
    refine ⟨fun c hc => h1 c hc, fun r hr => h2 r hr, fun r c hr1 hr2 hc1 hc2 => ?_⟩
    exact h3 r hr1 hr2 c hc1 hc2
  · rintro ⟨h1, h2, h3⟩
    refine ⟨⟨fun c hc => h1 c hc, fun r hr => h2 r hr⟩, fun r hr1 hr2 c hc1 hc2 => ?_⟩
    exact h3 r c hr1 hr2 hc1 hc2

theorem sqrtAux_pos {b n : Nat} (hb : 1 ≤ b) (hn : 1 ≤ n) : 0 < sqrtAux b n := by
  induction b with
  | zero => omega
  | succ b2 ih =>
    unfold sqrtAux
    by_cases h : (b2 + 1) * (b2 + 1) ≤ n
    · rw [if_pos h]; omega
    · rw [if_neg h]
      have hb2 : 1 ≤ b2 := by
        by_contra hc
        have : b2 = 0 := by omega
        subst this
        simp at h
        omega
      exact ih hb2

theorem sqrtN_pos {n : Nat} (hn : 0 < n) : 0 < sqrtN n :=
  sqrtAux_pos hn hn

theorem blockStart_le (N t : Nat) : blockStart N t ≤ t :=
  Nat.div_mul_le_self t (sqrtN N)

theorem lt_blockStart_add {N t : Nat} (hs : 0 < sqrtN N) :
    t < blockStart N t + sqrtN N := by
  unfold blockStart
  rw [Nat.mul_comm (t / sqrtN N) (sqrtN N)]
  have h1 := Nat.div_add_mod t (sqrtN N)
  have h2 := Nat.mod_lt t hs
  omega

theorem blockStart_mul_add {N a r : Nat} (hr : r < sqrtN N) :
    blockStart N (a * sqrtN N + r) = a * sqrtN N := by
  unfold blockStart
  have hs : 0 < sqrtN N := by omega
  rw [Nat.add_comm, Nat.add_mul_div_right r a hs, Nat.div_eq_of_lt hr, Nat.zero_add]

theorem mul_add_lt_sq {s a r : Nat} (ha : a < s) (hr : r < s) :
    a * s + r < s * s := by
  have h1 : (a + 1) * s ≤ s * s := Nat.mul_le_mul_right s ha
  have h2 : (a + 1) * s = a * s + s := by ring
  omega

theorem le_flatIdx_oob {N x y : Nat} (hy : N ≤ y) : N * N ≤ x + y * N := by
  have h1 : N * N ≤ y * N := Nat.mul_le_mul_right N hy
  omega

theorem setElem_oob {N : Nat} (g : SudokuMap N) {x y : Nat} (v : Int)
    (hWf : g.Wf) (hy : N ≤ y) : g.setElem x y v = g := by
  cases g with
  | mk l =>
    unfold SudokuMap.setElem
    have hlen : l.length ≤ x + y * N := by
      have := @le_flatIdx_oob N x y hy
      have hl : l.length = N * N := hWf
      omega
    rw [List.set_eq_of_length_le hlen]

/-- Placement of an accepted candidate preserves consistency: the three
scans of isCandidate cover exactly the cells sharing a unit with (x, y). -/
theorem consistent_setElem {N : Nat} {g : SudokuMap N} {x y : Nat} {v : Int}
    (hWf : g.Wf) (hcons : Consistent N g) (hx : x < N) (hy : y < N)
    (hc : g.isCandidate x y v = true) :
    Consistent N (g.setElem x y v) := by
  obtain ⟨hrow, hcol, hblk⟩ := (isCandidate_eq_true_iff g x y v).mp hc
  have hs : 0 < sqrtN N := sqrtN_pos (by omega)
  intro x1 h1 y1 h2 x2 h3 y2 h4 hne hsu hnz
  by_cases e1 : (x1, y1) = (x, y)
  · by_cases e2 : (x2, y2) = (x, y)
    · exact absurd (e1.trans e2.symm) hne
    · rw [Prod.mk.injEq] at e1
      obtain ⟨rfl, rfl⟩ := e1
      rw [getElem_setElem_self g v hWf hx hy]
      rw [getElem_setElem_ne g v hx h3 e2]
      rcases hsu with hsu1 | hsu1 | ⟨hbx, hby⟩
      · rw [← hsu1]
        exact (hrow y2 h4).symm
      · rw [← hsu1]
        exact (hcol x2 h3).symm
      · refine (hblk x2 y2 ?_ ?_ ?_ ?_).symm
        · rw [hbx]; exact blockStart_le N x2
        · rw [hbx]; exact lt_blockStart_add hs
        · rw [hby]; exact blockStart_le N y2
        · rw [hby]; exact lt_blockStart_add hs
  · rw [getElem_setElem_ne g v hx h1 e1] at hnz ⊢
    by_cases e2 : (x2, y2) = (x, y)
    · rw [Prod.mk.injEq] at e2
      obtain ⟨rfl, rfl⟩ := e2
      rw [getElem_setElem_self g v hWf hx hy]
      rcases hsu with hsu1 | hsu1 | ⟨hbx, hby⟩
      · rw [hsu1]
        exact hrow y1 h2
      · rw [hsu1]
        exact hcol x1 h1
      · refine hblk x1 y1 ?_ ?_ ?_ ?_
        · rw [← hbx]; exact blockStart_le N x1
        · rw [← hbx]; exact lt_blockStart_add hs
        · rw [← hby]; exact blockStart_le N y1
        · rw [← hby]; exact lt_blockStart_add hs
    · rw [getElem_setElem_ne g v hx h3 e2]
      exact hcons x1 h1 y1 h2 x2 h3 y2 h4 hne hsu hnz

/-- Search invariant: whenever a run from scan position (x, y) returns a
solution s, s is well-formed, s extends the input on its pre-filled cells,
every cell from (x, y) on is filled in s, and consistency and the value
range are preserved. -/
theorem runRel_invariant {N PD : Nat} {g : SudokuMap N} {x y d : Nat}
    {r : Option (SudokuMap N)} (h : RunRel N PD g x y d r) :
    ∀ s, r = some s → g.Wf →
      (s.Wf ∧ ExtendsMap N g s ∧ FilledFrom N s x y) ∧
      (Consistent N g → Consistent N s) ∧
      (ValuesIn N g → ValuesIn N s) := by
  induction h with
  | @solved x2 y2 g2 d2 hx hy =>
    intro s hs hWf
    cases hs
    refine ⟨⟨hWf, fun a ha b hb hnz => rfl, ?_⟩, fun hc => hc, fun hv => hv⟩
    intro a ha b hb hcond
    exfalso
    omega
  | @advance x2 y2 g2 d2 r2 hx hy _ ih =>
    intro s hs hWf
    obtain ⟨⟨sWf, ext, filled⟩, hc, hv⟩ := ih s hs hWf
    refine ⟨⟨sWf, ext, ?_⟩, hc, hv⟩
    intro a ha b hb hcond
    refine filled a ha b hb ?_
    omega
  | @skip x2 g2 y2 d2 r2 hx hz _ ih =>
    intro s hs hWf
    obtain ⟨⟨sWf, ext, filled⟩, hc, hv⟩ := ih s hs hWf
    refine ⟨⟨sWf, ext, ?_⟩, hc, hv⟩
    intro a ha b hb hcond
    rcases hcond with hb2 | ⟨hbe, hae⟩
    · exact filled a ha b hb (Or.inl hb2)
    · by_cases hax : x2 + 1 ≤ a
      · exact filled a ha b hb (Or.inr ⟨hbe, hax⟩)
      · have ha2 : a = x2 := by omega
        rw [ha2, ← hbe]
        rw [ext x2 hx y2 (by omega) hz]
        exact hz
  | @parFound x2 d2 i2 y2 s2 g2 hx hz hdp h1i hiN hci _ ih =>
    intro s hs hWf
    cases hs
    by_cases hy2 : y2 < N
    · have hWf2 : (g2.setElem x2 y2 (i2 : Int)).Wf := Wf_setElem g2 x2 y2 _ hWf
      obtain ⟨⟨sWf, ext, filled⟩, hc, hv⟩ := ih s2 rfl hWf2
      have hself : (g2.setElem x2 y2 (i2 : Int)).getElem x2 y2 = (i2 : Int) :=
        getElem_setElem_self g2 _ hWf hx hy2
      have hine : (i2 : Int) ≠ 0 := by omega
      have hext : ExtendsMap N g2 s2 := by
        intro a ha b hb hnz
        have hne : (a, b) ≠ (x2, y2) := by
          intro he
          rw [Prod.mk.injEq] at he
          obtain ⟨rfl, rfl⟩ := he
          exact hnz hz
        rw [ext a ha b hb (by rw [getElem_setElem_ne g2 _ hx ha hne]; exact hnz)]
        exact getElem_setElem_ne g2 _ hx ha hne
      refine ⟨⟨sWf, hext, ?_⟩, ?_, ?_⟩
      · intro a ha b hb hcond
        rcases hcond with hb2 | ⟨hbe, hae⟩
        · exact filled a ha b hb (Or.inl hb2)
        · by_cases hax : x2 + 1 ≤ a
          · exact filled a ha b hb (Or.inr ⟨hbe, hax⟩)
          · have ha2 : a = x2 := by omega
            rw [ha2, ← hbe]
            rw [ext x2 hx y2 hy2 (by rw [hself]; exact hine)]
            rw [hself]
            exact hine
      · intro hcons
        exact hc (consistent_setElem hWf hcons hx hy2 hci)
      · intro hvals
        refine hv ?_
        intro a ha b hb
        by_cases he : (a, b) = (x2, y2)
        · rw [Prod.mk.injEq] at he
          obtain ⟨rfl, rfl⟩ := he
          rw [hself]
          constructor
          · omega
          · omega
        · rw [getElem_setElem_ne g2 _ hx ha he]
          exact hvals a ha b hb
    · rw [setElem_oob g2 (i2 : Int) hWf (by omega)] at ih
      obtain ⟨⟨sWf, ext, filled⟩, hc, hv⟩ := ih s2 rfl hWf
      refine ⟨⟨sWf, ext, ?_⟩, hc, hv⟩
      intro a ha b hb hcond
      exfalso
      omega
  | @parNone x2 d2 y2 g2 hx hz hdp _ _ =>
    intro s hs
    exact absurd hs (by simp)
  | @seqFound x2 d2 i2 y2 s2 g2 hx hz hpd h1i hiN hci _ _ _ ihsub =>
    intro s hs hWf
    cases hs
    by_cases hy2 : y2 < N
    · have hWf2 : (g2.setElem x2 y2 (i2 : Int)).Wf := Wf_setElem g2 x2 y2 _ hWf
      obtain ⟨⟨sWf, ext, filled⟩, hc, hv⟩ := ihsub s2 rfl hWf2
      have hself : (g2.setElem x2 y2 (i2 : Int)).getElem x2 y2 = (i2 : Int) :=
        getElem_setElem_self g2 _ hWf hx hy2
      have hine : (i2 : Int) ≠ 0 := by omega
      have hext : ExtendsMap N g2 s2 := by
        intro a ha b hb hnz
        have hne : (a, b) ≠ (x2, y2) := by
          intro he
          rw [Prod.mk.injEq] at he
          obtain ⟨rfl, rfl⟩ := he
          exact hnz hz
        rw [ext a ha b hb (by rw [getElem_setElem_ne g2 _ hx ha hne]; exact hnz)]
        exact getElem_setElem_ne g2 _ hx ha hne
      refine ⟨⟨sWf, hext, ?_⟩, ?_, ?_⟩
      · intro a ha b hb hcond
        rcases hcond with hb2 | ⟨hbe, hae⟩
        · exact filled a ha b hb (Or.inl hb2)
        · by_cases hax : x2 + 1 ≤ a
          · exact filled a ha b hb (Or.inr ⟨hbe, hax⟩)
          · have ha2 : a = x2 := by omega
            rw [ha2, ← hbe]
            rw [ext x2 hx y2 hy2 (by rw [hself]; exact hine)]
            rw [hself]
            exact hine
      · intro hcons
        exact hc (consistent_setElem hWf hcons hx hy2 hci)
      · intro hvals
        refine hv ?_
        intro a ha b hb
        by_cases he : (a, b) = (x2, y2)
        · rw [Prod.mk.injEq] at he
          obtain ⟨rfl, rfl⟩ := he
          rw [hself]
          constructor
          · omega
          · omega
        · rw [getElem_setElem_ne g2 _ hx ha he]
          exact hvals a ha b hb
    · rw [setElem_oob g2 (i2 : Int) hWf (by omega)] at ihsub
      obtain ⟨⟨sWf, ext, filled⟩, hc, hv⟩ := ihsub s2 rfl hWf
      refine ⟨⟨sWf, ext, ?_⟩, hc, hv⟩
      intro a ha b hb hcond
      exfalso
      omega
  | @seqNone x2 d2 y2 g2 hx hz hpd _ _ =>
    intro s hs
    exact absurd hs (by simp)

/-! Counting: a duplicate-free list of N values, all in [1, N], contains
each value of [1, N] exactly once. -/

theorem count_vals_eq_one {N : Nat} {L : List Int}
    (hlen : L.length = N) (hnodup : L.Nodup)
    (hmem : ∀ v ∈ L, 1 ≤ v ∧ v ≤ (N : Int)) :
    ∀ v ∈ Finset.Icc (1 : Int) (N : Int), L.count v = 1 := by
  have hsub : L.toFinset ⊆ Finset.Icc (1 : Int) (N : Int) := by
    intro v hv
    rw [List.mem_toFinset] at hv
    obtain ⟨hl, hr⟩ := hmem v hv
    rw [Finset.mem_Icc]
    exact ⟨hl, hr⟩
  have hcard : (Finset.Icc (1 : Int) (N : Int)).card = N := by
    rw [Int.card_Icc]
    omega
  have heq : L.toFinset = Finset.Icc (1 : Int) (N : Int) :=
    Finset.eq_of_subset_of_card_le hsub
      (by rw [hcard, List.toFinset_card_of_nodup hnodup, hlen])
  intro v hv
  have hvv : v ∈ L := by
    rw [← List.mem_toFinset, heq]
    exact hv
  exact List.count_eq_one_of_mem hnodup hvv

/-- Assembly of the validity property: a fully filled, consistent grid with
all values in [0, N] (hence in [1, N] by fullness) satisfies LinesOk,
provided N is the square of its integer square root. -/
theorem linesOk_of_full {N : Nat} {s : SudokuMap N}
    (hsq : sqrtN N * sqrtN N = N)
    (hcons : Consistent N s) (hvals : ValuesIn N s) (hfill : FilledFrom N s 0 0) :
    LinesOk N s := by
  have hfill0 : ∀ a < N, ∀ b < N, s.getElem a b ≠ 0 := by
    intro a ha b hb
    exact hfill a ha b hb (by omega)
  refine ⟨?_, ?_, ?_⟩
  · intro x hx
    refine count_vals_eq_one (by simp [xLineVals]) ?_ ?_
    · show ((List.range N).map fun c => s.getElem x c).Pairwise (· ≠ ·)
      rw [List.pairwise_map]
      refine (List.pairwise_lt_range N).imp_of_mem ?_
      intro c1 c2 hm1 hm2 hlt
      rw [List.mem_range] at hm1 hm2
      refine hcons x hx c1 hm1 x hx c2 hm2 ?_ (Or.inl rfl) (hfill0 x hx c1 hm1)
      intro he
      rw [Prod.mk.injEq] at he
      omega
    · intro v hv
      rw [xLineVals, List.mem_map] at hv
      obtain ⟨c, hc, rfl⟩ := hv
      rw [List.mem_range] at hc
      have h1 := hvals x hx c hc
      have h2 := hfill0 x hx c hc
      omega
  · intro y hy
    refine count_vals_eq_one (by simp [yLineVals]) ?_ ?_
    · show ((List.range N).map fun r => s.getElem r y).Pairwise (· ≠ ·)
      rw [List.pairwise_map]
      refine (List.pairwise_lt_range N).imp_of_mem ?_
      intro r1 r2 hm1 hm2 hlt
      rw [List.mem_range] at hm1 hm2
      refine hcons r1 hm1 y hy r2 hm2 y hy ?_ (Or.inr (Or.inl rfl)) (hfill0 r1 hm1 y hy)
      intro he
      rw [Prod.mk.injEq] at he
      omega
    · intro v hv
      rw [yLineVals, List.mem_map] at hv
      obtain ⟨r, hr, rfl⟩ := hv
      rw [List.mem_range] at hr
      have h1 := hvals r hr y hy
      have h2 := hfill0 r hr y hy
      omega
  · intro b1 hb1 b2 hb2
    have hs : 0 < sqrtN N := by omega
    have hin : ∀ r < sqrtN N, b1 * sqrtN N + r < N := by
      intro r hr
      have h := mul_add_lt_sq hb1 hr
      rw [hsq] at h
      exact h
    have hin2 : ∀ c < sqrtN N, b2 * sqrtN N + c < N := by
      intro c hc
      have h := mul_add_lt_sq hb2 hc
      rw [hsq] at h
      exact h
    have hsame : ∀ r1 < sqrtN N, ∀ c1 < sqrtN N, ∀ r2 < sqrtN N, ∀ c2 < sqrtN N,
        SameUnit N (b1 * sqrtN N + r1) (b2 * sqrtN N + c1)
          (b1 * sqrtN N + r2) (b2 * sqrtN N + c2) := by
      intro r1 h1 c1 h2 r2 h3 c2 h4
      refine Or.inr (Or.inr ⟨?_, ?_⟩)
      · rw [blockStart_mul_add h1, blockStart_mul_add h3]
      · rw [blockStart_mul_add h2, blockStart_mul_add h4]
    refine count_vals_eq_one ?_ ?_ ?_
    · rw [blockVals, List.length_flatMap]
      simp only [Function.comp_def, List.length_map, List.length_range, List.map_const',
        List.sum_replicate, smul_eq_mul]
      exact hsq
    · rw [blockVals, List.nodup_flatMap]
      constructor
      · intro r hr
        rw [List.mem_range] at hr
        show (List.map (fun c => s.getElem (b1 * sqrtN N + r) (b2 * sqrtN N + c))
          (List.range (sqrtN N))).Pairwise (· ≠ ·)
        rw [List.pairwise_map]
        refine (List.pairwise_lt_range _).imp_of_mem ?_
        intro c1 c2 hm1 hm2 hlt
        rw [List.mem_range] at hm1 hm2
        refine hcons _ (hin r hr) _ (hin2 c1 hm1) _ (hin r hr) _ (hin2 c2 hm2) ?_
          (hsame r hr c1 hm1 r hr c2 hm2) (hfill0 _ (hin r hr) _ (hin2 c1 hm1))
        intro he
        rw [Prod.mk.injEq] at he
        omega
      · refine (List.pairwise_lt_range _).imp_of_mem ?_
        intro r1 r2 hm1 hm2 hlt
        rw [List.mem_range] at hm1 hm2
        intro v hv1 hv2
        rw [List.mem_map] at hv1 hv2
        obtain ⟨c1, hc1, hve1⟩ := hv1
        obtain ⟨c2, hc2, hve2⟩ := hv2
        rw [List.mem_range] at hc1 hc2
        refine hcons _ (hin r1 hm1) _ (hin2 c1 hc1) _ (hin r2 hm2) _ (hin2 c2 hc2) ?_
          (hsame r1 hm1 c1 hc1 r2 hm2 c2 hc2) (hfill0 _ (hin r1 hm1) _ (hin2 c1 hc1))
          (hve1.trans hve2.symm)
        intro he
        rw [Prod.mk.injEq] at he
        omega
    · intro v hv
      rw [blockVals, List.mem_flatMap] at hv
      obtain ⟨r, hr, hv2⟩ := hv
      rw [List.mem_range] at hr
      rw [List.mem_map] at hv2
      obtain ⟨c, hc, rfl⟩ := hv2
      rw [List.mem_range] at hc
      have h1 := hvals _ (hin r hr) _ (hin2 c hc)
      have h2 := hfill0 _ (hin r hr) _ (hin2 c hc)
      omega

/-! Runs on fully filled grids, the first-success property of the
sequential candidate loop, and counting of duplicates. -/

theorem runF_full {N : Nat} {g : SudokuMap N}
    (hfull : ∀ a < N, ∀ b < N, g.getElem a b ≠ 0) :
    ∀ fuel x y d, mu N x y < fuel → (y < N ∨ N ≤ x) →
      runF N fuel g x y d = some g := by
  intro fuel
  induction fuel with
  | zero => intro x y d h1 h2; omega
  | succ n ih =>
    intro x y d hmu hreach
    simp only [runF]
    by_cases hx : N ≤ x
    · by_cases hy : N ≤ y + 1
      · rw [if_pos hx, if_pos hy]
      · rw [if_pos hx, if_neg hy]
        have := @mu_advance N x y hx (by omega)
        exact ih 0 (y + 1) d (by omega) (Or.inl (by omega))
    · have hyN : y < N := by
        rcases hreach with h | h
        · exact h
        · omega
      have := @mu_skip N x y (by omega)
      rw [if_neg hx, if_pos (hfull x (by omega) y hyN)]
      exact ih (x + 1) y d (by omega) (Or.inl hyN)

theorem runRel_full {N PD : Nat} {g : SudokuMap N}
    (hfull : ∀ a < N, ∀ b < N, g.getElem a b ≠ 0) :
    ∀ fuel x y d, mu N x y < fuel → (y < N ∨ N ≤ x) →
      RunRel N PD g x y d (some g) := by
  intro fuel
  induction fuel with
  | zero => intro x y d h1 h2; omega
  | succ n ih =>
    intro x y d hmu hreach
    by_cases hx : N ≤ x
    · by_cases hy : N ≤ y + 1
      · exact RunRel.solved hx hy
      · have := @mu_advance N x y hx (by omega)
        exact RunRel.advance hx (by omega) (ih 0 (y + 1) d (by omega) (Or.inl (by omega)))
    · have hyN : y < N := by
        rcases hreach with h | h
        · exact h
        · omega
      have := @mu_skip N x y (by omega)
      exact RunRel.skip (by omega) (hfull x (by omega) y hyN)
        (ih (x + 1) y d (by omega) (Or.inl hyN))

theorem runRel_full_eq {N PD : Nat} {g : SudokuMap N}
    {x y d : Nat} {r : Option (SudokuMap N)} (h : RunRel N PD g x y d r) :
    (∀ a < N, ∀ b < N, g.getElem a b ≠ 0) → (y < N ∨ N ≤ x) → r = some g := by
  induction h with
  | solved hx hy => intro _ _; rfl
  | @advance x2 y2 g2 d2 r2 hx hy _ ih =>
    intro hfull _
    exact ih hfull (Or.inl (by omega))
  | @skip x2 g2 y2 d2 r2 hx hz _ ih =>
    intro hfull hreach
    have hyN : y2 < N := by
      rcases hreach with h2 | h2
      · exact h2
      · omega
    exact ih hfull (Or.inl hyN)
  | @parFound x2 d2 i2 y2 s2 g2 hx hz hdp h1i hiN hci _ _ =>
    intro hfull hreach
    have hyN : y2 < N := by
      rcases hreach with h2 | h2
      · exact h2
      · omega
    exact absurd hz (hfull x2 hx y2 hyN)
  | @parNone x2 d2 y2 g2 hx hz hdp _ _ =>
    intro hfull hreach
    have hyN : y2 < N := by
      rcases hreach with h2 | h2
      · exact h2
      · omega
    exact absurd hz (hfull x2 hx y2 hyN)
  | @seqFound x2 d2 i2 y2 s2 g2 hx hz hpd h1i hiN hci _ _ _ _ =>
    intro hfull hreach
    have hyN : y2 < N := by
      rcases hreach with h2 | h2
      · exact h2
      · omega
    exact absurd hz (hfull x2 hx y2 hyN)
  | @seqNone x2 d2 y2 g2 hx hz hpd _ _ =>
    intro hfull hreach
    have hyN : y2 < N := by
      rcases hreach with h2 | h2
      · exact h2
      · omega
    exact absurd hz (hfull x2 hx y2 hyN)

theorem runF_first_candidate {N : Nat} {g : SudokuMap N} {x y d i fuel : Nat}
    {s : SudokuMap N}
    (hmu : mu N x y < fuel) (hx : x < N) (hz : g.getElem x y = 0)
    (h1i : 1 ≤ i) (hiN : i ≤ N) (hci : g.isCandidate x y (i : Int) = true)
    (hsub : runF N fuel (g.setElem x y (i : Int)) (x + 1) y (d + 1) = some s)
    (hbef : ∀ j, 1 ≤ j → j < i → g.isCandidate x y (j : Int) = true →
      runF N fuel (g.setElem x y (j : Int)) (x + 1) y (d + 1) = none) :
    runF N fuel g x y d = some s := by
  obtain ⟨n, rfl⟩ : ∃ n, fuel = n + 1 := ⟨fuel - 1, by omega⟩
  have hmu2 := @mu_skip N x y hx
  simp only [runF]
  rw [if_neg (by omega), if_neg (not_not_intro hz)]
  refine tryCands_some_of (candList_sorted N) (mem_candList.mpr ⟨h1i, hiN⟩) hci ?_ ?_
  · show runF N n (g.setElem x y (i : Int)) (x + 1) y (d + 1) = some s
    rw [@runF_congr N n (n + 1) (g.setElem x y (i : Int)) (x + 1) y (d + 1)
      (by omega) (by omega)]
    exact hsub
  · intro j hj hji hcj
    show runF N n (g.setElem x y (j : Int)) (x + 1) y (d + 1) = none
    rw [@runF_congr N n (n + 1) (g.setElem x y (j : Int)) (x + 1) y (d + 1)
      (by omega) (by omega)]
    exact hbef j (mem_candList.mp hj).1 hji hcj

theorem two_le_count_map_range {f : Nat → Int} {v : Int} {a b : Nat}
    (hab : a < b) (he1 : f a = v) (he2 : f b = v) :
    ∀ n, b < n → 2 ≤ ((List.range n).map f).count v := by
  intro n
  induction n with
  | zero => omega
  | succ m ih =>
    intro hbm
    rw [List.range_succ, List.map_append, List.count_append]
    by_cases hc : b = m
    · subst hc
      have hmem : v ∈ (List.range b).map f :=
        List.mem_map.mpr ⟨a, List.mem_range.mpr hab, he1⟩
      have h1 : 0 < ((List.range b).map f).count v := List.count_pos_iff.mpr hmem
      have h2 : ([b].map f).count v = 1 := by
        simp [List.count_cons, he2]
      omega
    · have := ih (by omega)
      omega

theorem two_le_sum_map_range {g : Nat → Nat} {a b : Nat}
    (hab : a < b) (ha1 : 1 ≤ g a) (hb1 : 1 ≤ g b) :
    ∀ n, b < n → 2 ≤ ((List.range n).map g).sum := by
  intro n
  induction n with
  | zero => omega
  | succ m ih =>
    intro hbm
    rw [List.range_succ, List.map_append, List.sum_append]
    by_cases hc : b = m
    · subst hc
      have hmem : g a ∈ (List.range b).map g :=
        List.mem_map.mpr ⟨a, List.mem_range.mpr hab, rfl⟩
      have hle : g a ≤ ((List.range b).map g).sum :=
        List.single_le_sum (fun u _ => Nat.zero_le u) _ hmem
      simp only [List.map_cons, List.map_nil, List.sum_cons, List.sum_nil]
      omega
    · have := ih (by omega)
      omega

theorem sqrtN_pos_of_sq {N : Nat} (hsq : sqrtN N * sqrtN N = N) (hN : 0 < N) :
    0 < sqrtN N := by
  by_contra h
  have h0 : sqrtN N = 0 := by omega
  rw [h0] at hsq
  omega

theorem div_lt_sqrt {N t : Nat} (hsq : sqrtN N * sqrtN N = N) (ht : t < N) :
    t / sqrtN N < sqrtN N := by
  have hs : 0 < sqrtN N := sqrtN_pos_of_sq hsq (by omega)
  rw [Nat.div_lt_iff_lt_mul hs, hsq]
  exact ht

theorem blockStart_decomp (N t : Nat) :
    (t / sqrtN N) * sqrtN N + t % sqrtN N = t := by
  rw [Nat.mul_comm]
  exact Nat.div_add_mod t (sqrtN N)

theorem two_le_count_blockVals {N : Nat} {s : SudokuMap N} {b1 b2 r1 c1 r2 c2 : Nat}
    {v : Int}
    (hr1 : r1 < sqrtN N) (hc1 : c1 < sqrtN N) (hr2 : r2 < sqrtN N) (hc2 : c2 < sqrtN N)
    (hne : (r1, c1) ≠ (r2, c2))
    (he1 : s.getElem (b1 * sqrtN N + r1) (b2 * sqrtN N + c1) = v)
    (he2 : s.getElem (b1 * sqrtN N + r2) (b2 * sqrtN N + c2) = v) :
    2 ≤ (blockVals N s b1 b2).count v := by
  rw [blockVals, List.count_flatMap]
  by_cases hr : r1 = r2
  · subst hr
    have hcc : c1 ≠ c2 := by
      intro he
      exact hne (by rw [he])
    have hinner : 2 ≤ (List.count v ∘ fun r => (List.range (sqrtN N)).map fun c =>
        s.getElem (b1 * sqrtN N + r) (b2 * sqrtN N + c)) r1 := by
      show 2 ≤ ((List.range (sqrtN N)).map fun c =>
        s.getElem (b1 * sqrtN N + r1) (b2 * sqrtN N + c)).count v
      rcases Nat.lt_or_ge c1 c2 with hlt | hge
      · exact two_le_count_map_range hlt he1 he2 (sqrtN N) hc2
      · have hlt2 : c2 < c1 := by omega
        exact two_le_count_map_range hlt2 he2 he1 (sqrtN N) hc1
    refine le_trans hinner (List.single_le_sum (fun u _ => Nat.zero_le u) _ ?_)
    exact List.mem_map.mpr ⟨r1, List.mem_range.mpr hr1, rfl⟩
  · have h1 : 1 ≤ (List.count v ∘ fun r => (List.range (sqrtN N)).map fun c =>
        s.getElem (b1 * sqrtN N + r) (b2 * sqrtN N + c)) r1 := by
      show 1 ≤ ((List.range (sqrtN N)).map fun c =>
        s.getElem (b1 * sqrtN N + r1) (b2 * sqrtN N + c)).count v
      exact List.count_pos_iff.mpr
        (List.mem_map.mpr ⟨c1, List.mem_range.mpr hc1, he1⟩)
    have h2 : 1 ≤ (List.count v ∘ fun r => (List.range (sqrtN N)).map fun c =>
        s.getElem (b1 * sqrtN N + r) (b2 * sqrtN N + c)) r2 := by
      show 1 ≤ ((List.range (sqrtN N)).map fun c =>
        s.getElem (b1 * sqrtN N + r2) (b2 * sqrtN N + c)).count v
      exact List.count_pos_iff.mpr
        (List.mem_map.mpr ⟨c2, List.mem_range.mpr hc2, he2⟩)
    rcases Nat.lt_or_ge r1 r2 with hlt | hge
    · exact two_le_sum_map_range hlt h1 h2 (sqrtN N) hr2
    · have hlt2 : r2 < r1 := by omega
      exact two_le_sum_map_range hlt2 h2 h1 (sqrtN N) hr1

theorem runFSt_frame {N : Nat} :
    ∀ (fuel : Nat) (g : SudokuMap N) (x y d : Nat),
      (runFSt N fuel g x y d).2 = g ∧ (runFSt N fuel g x y d).1 = runF N fuel g x y d := by
  intro fuel
  induction fuel with
  | zero => intro g x y d; exact ⟨rfl, rfl⟩
  | succ n ih =>
    intro g x y d
    simp only [runFSt, runF]
    by_cases hx : N ≤ x
    · by_cases hy : N ≤ y + 1
      · rw [if_pos hx, if_pos hy, if_pos hx, if_pos hy]
        exact ⟨rfl, rfl⟩
      · rw [if_pos hx, if_neg hy, if_pos hx, if_neg hy]
        exact ih g 0 (y + 1) d
    · rw [if_neg hx, if_neg hx]
      by_cases hz : g.getElem x y = 0
      · rw [if_neg (not_not_intro hz), if_neg (not_not_intro hz)]
        refine ⟨rfl, ?_⟩
        show tryCands g x y (fun g2 => (runFSt N n g2 (x + 1) y (d + 1)).1) (candList N) =
          tryCands g x y (fun g2 => runF N n g2 (x + 1) y (d + 1)) (candList N)
        exact tryCands_congr g x y (fun g2 => (ih g2 (x + 1) y (d + 1)).2) (candList N)
      · rw [if_pos hz, if_pos hz]
        exact ih g (x + 1) y d

/-! Shared concrete derivations used by witnesses and counterexamples. -/

theorem runRel_allOnes4 (PD : Nat) : RunRel 4 PD allOnes4 0 0 1 (some allOnes4) :=
  runRel_full (by decide) (fuelFor 4) 0 0 1 (by decide) (by decide)

theorem runRel_solved4 (PD : Nat) : RunRel 4 PD solved4 0 0 1 (some solved4) :=
  runRel_full (by decide) (fuelFor 4) 0 0 1 (by decide) (by decide)

/-! Claim theorems. -/

/-- C1 (amended): for every dimension N that is the square of its integer
square root, every well-formed input grid with values in [0, N] whose
pre-filled (nonzero) cells contain no duplicate within any line or
sub-block, and every parallel-depth configuration PD, whenever the solver
run from the initial position returns a grid, that grid has each value
1..N exactly once in each of the N lines sharing an x coordinate, each of
the N lines sharing a y coordinate, and each of the N sub-blocks. (The
consistency hypothesis on the pre-filled cells is the amendment: the
solver skips pre-filled cells without validating them, so without it the
returned grid can violate uniqueness.) -/
theorem run_solution_valid {N PD : Nat} {g s : SudokuMap N}
    (hsq : sqrtN N * sqrtN N = N) (hWf : g.Wf) (hvals : ValuesIn N g)
    (hcons : Consistent N g)
    (hrun : RunRel N PD g 0 0 1 (some s)) :
    LinesOk N s := by
  obtain ⟨⟨sWf, ext, filled⟩, hc, hv⟩ := runRel_invariant hrun s rfl hWf
  exact linesOk_of_full hsq (hc hcons) (hv hvals) filled

theorem run_solution_valid_witness :
    (sqrtN 4 * sqrtN 4 = 4) ∧ solved4.Wf ∧ ValuesIn 4 solved4 ∧
      Consistent 4 solved4 ∧ LinesOk 4 solved4 :=
  ⟨by decide, by decide, by decide, by decide,
    run_solution_valid (by decide) (by decide) (by decide) (by decide) (runRel_solved4 1)⟩

theorem run_solution_valid_cex :
    (sqrtN 4 * sqrtN 4 = 4) ∧ allOnes4.Wf ∧ ValuesIn 4 allOnes4 ∧
      RunRel 4 1 allOnes4 0 0 1 (some allOnes4) ∧ ¬ LinesOk 4 allOnes4 :=
  ⟨by decide, by decide, by decide, runRel_allOnes4 1, by decide⟩

/-- C2 (amended): for every well-formed input with values in [0, N] that
holds the same nonzero value in two distinct cells of one line or
sub-block, any run of the solver either returns the no-solution result or
returns a grid that preserves the input's pre-filled cells and therefore
still contains the duplicate, violating the uniqueness property. (The
original claim, that such inputs always give the Unsolvable outcome and
never an invalid grid, fails: pre-filled cells are never validated.) -/
theorem run_duplicate_input {N PD : Nat} {g : SudokuMap N} {r : Option (SudokuMap N)}
    {x1 y1 x2 y2 : Nat}
    (hsq : sqrtN N * sqrtN N = N) (hWf : g.Wf) (hvals : ValuesIn N g)
    (h1 : x1 < N) (h2 : y1 < N) (h3 : x2 < N) (h4 : y2 < N)
    (hne : (x1, y1) ≠ (x2, y2)) (hsu : SameUnit N x1 y1 x2 y2)
    (hnz : g.getElem x1 y1 ≠ 0) (hdup : g.getElem x1 y1 = g.getElem x2 y2)
    (hrun : RunRel N PD g 0 0 1 r) :
    r = none ∨ ∃ s, r = some s ∧ ExtendsMap N g s ∧ ¬ LinesOk N s := by
  cases r with
  | none => exact Or.inl rfl
  | some s =>
    have ext := (runRel_invariant hrun s rfl hWf).1.2.1
    refine Or.inr ⟨s, rfl, ext, ?_⟩
    have hs1 : s.getElem x1 y1 = g.getElem x1 y1 := ext x1 h1 y1 h2 hnz
    have hnz2 : g.getElem x2 y2 ≠ 0 := by rw [← hdup]; exact hnz
    have hs2 : s.getElem x2 y2 = g.getElem x2 y2 := ext x2 h3 y2 h4 hnz2
    have hvIcc : g.getElem x1 y1 ∈ Finset.Icc (1 : Int) (N : Int) := by
      have := hvals x1 h1 y1 h2
      rw [Finset.mem_Icc]
      omega
    intro hlines
    obtain ⟨hxl, hyl, hbl⟩ := hlines
    rcases hsu with he | he | hbs
    · have hyne : y1 ≠ y2 := by
        intro hcontra
        exact hne (by rw [he, hcontra])
      have hcount := hxl x1 h1 _ hvIcc
      rw [xLineVals] at hcount
      have hs2x : s.getElem x1 y2 = g.getElem x1 y1 := by
        have h0 : s.getElem x2 y2 = g.getElem x1 y1 := hs2.trans hdup.symm
        rw [← he] at h0
        exact h0
      have h2c : 2 ≤ ((List.range N).map fun c => s.getElem x1 c).count
          (g.getElem x1 y1) := by
        rcases Nat.lt_or_ge y1 y2 with hlt | hge
        · exact two_le_count_map_range hlt hs1 hs2x N h4
        · have hlt2 : y2 < y1 := by omega
          exact two_le_count_map_range hlt2 hs2x hs1 N h2
      omega
    · have hxne : x1 ≠ x2 := by
        intro hcontra
        exact hne (by rw [he, hcontra])
      have hcount := hyl y1 h2 _ hvIcc
      rw [yLineVals] at hcount
      have hs2y : s.getElem x2 y1 = g.getElem x1 y1 := by
        have h0 : s.getElem x2 y2 = g.getElem x1 y1 := hs2.trans hdup.symm
        rw [← he] at h0
        exact h0
      have h2c : 2 ≤ ((List.range N).map fun rr => s.getElem rr y1).count
          (g.getElem x1 y1) := by
        rcases Nat.lt_or_ge x1 x2 with hlt | hge
        · exact two_le_count_map_range hlt hs1 hs2y N h3
        · have hlt2 : x2 < x1 := by omega
          exact two_le_count_map_range hlt2 hs2y hs1 N h1
      omega
    · obtain ⟨hbx, hby⟩ := hbs
      have hspos : 0 < sqrtN N := sqrtN_pos_of_sq hsq (by omega)
      have hb1 : x1 / sqrtN N < sqrtN N := div_lt_sqrt hsq h1
      have hb2 : y1 / sqrtN N < sqrtN N := div_lt_sqrt hsq h2
      have e1 : (x1 / sqrtN N) * sqrtN N + x1 % sqrtN N = x1 := blockStart_decomp N x1
      have ec1 : (y1 / sqrtN N) * sqrtN N + y1 % sqrtN N = y1 := blockStart_decomp N y1
      have e2 : (x1 / sqrtN N) * sqrtN N + x2 % sqrtN N = x2 := by
        have hd := blockStart_decomp N x2
        have hbx2 : (x1 / sqrtN N) * sqrtN N = (x2 / sqrtN N) * sqrtN N := hbx
        rw [hbx2]
        exact hd
      have ec2 : (y1 / sqrtN N) * sqrtN N + y2 % sqrtN N = y2 := by
        have hd := blockStart_decomp N y2
        have hby2 : (y1 / sqrtN N) * sqrtN N = (y2 / sqrtN N) * sqrtN N := hby
        rw [hby2]
        exact hd
      have hcount := hbl (x1 / sqrtN N) hb1 (y1 / sqrtN N) hb2 _ hvIcc
      have hrne : (x1 % sqrtN N, y1 % sqrtN N) ≠ (x2 % sqrtN N, y2 % sqrtN N) := by
        intro hcontra
        rw [Prod.mk.injEq] at hcontra
        refine hne ?_
        rw [Prod.mk.injEq]
        constructor
        · rw [← e1, ← e2, hcontra.1]
        · rw [← ec1, ← ec2, hcontra.2]
      have h2c : 2 ≤ (blockVals N s (x1 / sqrtN N) (y1 / sqrtN N)).count
          (g.getElem x1 y1) := by
        refine two_le_count_blockVals (Nat.mod_lt x1 hspos) (Nat.mod_lt y1 hspos)
          (Nat.mod_lt x2 hspos) (Nat.mod_lt y2 hspos) hrne ?_ ?_
        · rw [e1, ec1]
          exact hs1
        · rw [e2, ec2]
          rw [hs2]
          exact hdup.symm
      omega

theorem run_duplicate_input_witness :
    some allOnes4 = none ∨
      ∃ s, some allOnes4 = some s ∧ ExtendsMap 4 allOnes4 s ∧ ¬ LinesOk 4 s :=
  @run_duplicate_input 4 1 allOnes4 (some allOnes4) 0 0 0 1 (by decide) (by decide)
    (by decide) (by decide) (by decide) (by decide) (by decide) (by decide) (by decide)
    (by decide) (by decide) (runRel_allOnes4 1)

theorem run_duplicate_cex :
    allOnes4.Wf ∧ ValuesIn 4 allOnes4 ∧
      SameUnit 4 0 0 0 1 ∧ ((0, 0) : Nat × Nat) ≠ (0, 1) ∧
      allOnes4.getElem 0 0 ≠ 0 ∧ allOnes4.getElem 0 0 = allOnes4.getElem 0 1 ∧
      RunRel 4 1 allOnes4 0 0 1 (some allOnes4) ∧
      some allOnes4 ≠ none ∧ ¬ LinesOk 4 allOnes4 :=
  ⟨by decide, by decide, by decide, by decide, by decide, by decide,
    runRel_allOnes4 1, by decide, by decide⟩

/-- C3: for every cell (x, y) with both coordinates in [0, N) and every
value v, SudokuMap::isCandidate(x, y, v) returns false exactly when v
already occurs in the line of cells sharing coordinate x, in the line of
cells sharing coordinate y, or in the sqrt(N) × sqrt(N) sub-block whose
start along each axis is (coord / sqrt(N)) * sqrt(N); otherwise it returns
true. The embedding is a pure function of the grid (the C++ method is
const on a read-only reference), so the grid is never modified. -/
theorem isCandidate_false_iff {N : Nat} (g : SudokuMap N) (x y : Nat) (v : Int)
    (_hx : x < N) (_hy : y < N) :
    g.isCandidate x y v = false ↔
      ((∃ c < N, g.getElem x c = v) ∨ (∃ r < N, g.getElem r y = v) ∨
        (∃ r c : Nat, (blockStart N x ≤ r ∧ r < blockStart N x + sqrtN N) ∧
          (blockStart N y ≤ c ∧ c < blockStart N y + sqrtN N) ∧
          g.getElem r c = v)) := by
  rw [Bool.eq_false_iff, ne_eq, isCandidate_eq_true_iff]
  constructor
  · intro h
    by_contra hocc
    push_neg at hocc
    obtain ⟨h1, h2, h3⟩ := hocc
    refine h ⟨fun c hc => h1 c hc, fun r hr => h2 r hr, ?_⟩
    intro r c hr1 hr2 hc1 hc2
    exact h3 r c ⟨hr1, hr2⟩ ⟨hc1, hc2⟩
  · rintro (⟨c, hc, he⟩ | ⟨r, hr, he⟩ | ⟨r, c, ⟨hr1, hr2⟩, ⟨hc1, hc2⟩, he⟩) ⟨h1, h2, h3⟩
    · exact h1 c hc he
    · exact h2 r hr he
    · exact h3 r c hr1 hr2 hc1 hc2 he

theorem isCandidate_false_iff_witness :
    solved4.isCandidate 0 0 1 = false ∧ solved4.isCandidate 0 0 1 ≠ true :=
  ⟨(isCandidate_false_iff solved4 0 0 1 (by decide) (by decide)).mpr
      (Or.inl ⟨0, by decide, by decide⟩),
    by decide⟩

/-- C4 (amended): on a well-formed grid, getElem and setElem fail with the
OutOfRange condition exactly when the flat index x + y * N is not below the
N * N storage; a call with a coordinate outside [0, N) succeeds whenever
its flat index happens to be in range, because std::vector::at checks only
the flat index (this is the correction to the claim that any out-of-range
coordinate fails). -/
theorem getElem_setElem_flat_bounds {N : Nat} (g : SudokuMap N) (hWf : g.Wf)
    (x y : Nat) (v : Int) :
    (g.getElem? x y = none ↔ N * N ≤ x + y * N) ∧
    (g.setElem? x y v = none ↔ N * N ≤ x + y * N) := by
  have hlen : g.elements.length = N * N := hWf
  constructor
  · unfold SudokuMap.getElem?
    rw [List.getElem?_eq_none_iff, hlen]
  · unfold SudokuMap.setElem?
    rw [hlen]
    by_cases h : x + y * N < N * N
    · rw [if_pos h]
      constructor
      · intro hc
        exact absurd hc (by simp)
      · intro hc
        omega
    · rw [if_neg h]
      constructor
      · intro _
        omega
      · intro _
        rfl

theorem getElem_setElem_flat_bounds_witness :
    zeros4.getElem? 0 5 = none ∧ zeros4.setElem? 0 5 7 = none := by
  have h := getElem_setElem_flat_bounds zeros4 (by decide) 0 5 7
  exact ⟨h.1.mpr (by decide), h.2.mpr (by decide)⟩

theorem getElem_flat_bounds_cex :
    ¬ (5 < 4) ∧ zeros4.getElem? 5 0 = some 0 ∧ zeros4.setElem? 5 0 7 ≠ none := by
  decide

/-- C5: with maxParallelizationDepth ≤ 1 and depth starting at 1, the test
depth < maxParallelizationDepth_ fails at every level (depth only
increases), so no parallel branch is ever taken: the result relation
collapses to the sequential function runF, hence any two runs on the same
input return the same result. Moreover in the sequential branch the
candidates 1..N are tried in ascending order at each empty cell and the
first candidate whose subtree yields a solution determines the result at
once, the remaining candidates being irrelevant. -/
theorem run_sequential_deterministic {N PD : Nat} (hPD : PD ≤ 1) :
    (∀ (g : SudokuMap N) (d : Nat), 1 ≤ d →
      ∀ r, RunRel N PD g 0 0 d r ↔ r = runF N (fuelFor N) g 0 0 d) ∧
    (∀ (g : SudokuMap N) (x y d i fuel : Nat) (s : SudokuMap N),
      mu N x y < fuel → x < N → g.getElem x y = 0 →
      1 ≤ i → i ≤ N → g.isCandidate x y (i : Int) = true →
      runF N fuel (g.setElem x y (i : Int)) (x + 1) y (d + 1) = some s →
      (∀ j, 1 ≤ j → j < i → g.isCandidate x y (j : Int) = true →
        runF N fuel (g.setElem x y (j : Int)) (x + 1) y (d + 1) = none) →
      runF N fuel g x y d = some s) := by
  constructor
  · intro g d hd r
    constructor
    · intro h
      exact runRel_eq_runF h hPD hd (fuelFor N) (mu_lt_fuelFor N 0 0)
    · rintro rfl
      exact runRel_of_runF g 0 0 d (by omega) (mu_lt_fuelFor N 0 0)
  · intro g x y d i fuel s hmu hx hz h1i hiN hci hsub hbef
    exact runF_first_candidate hmu hx hz h1i hiN hci hsub hbef

theorem run_sequential_deterministic_witness :
    RunRel 1 1 ⟨[0]⟩ 0 0 1 (some ⟨[1]⟩) ∧ runF 1 4 ⟨[0]⟩ 0 0 1 = some ⟨[1]⟩ := by
  have h := @run_sequential_deterministic 1 1 (by decide)
  constructor
  · exact (h.1 ⟨[0]⟩ 1 (by decide) (some ⟨[1]⟩)).mpr (by decide)
  · exact h.2 ⟨[0]⟩ 0 0 1 1 4 ⟨[1]⟩ (by decide) (by decide) (by decide) (by decide)
      (by decide) (by decide) (by decide) (fun j h1j hj1 _ => absurd hj1 (by omega))

/-- C6: a grid that is already fully filled (no zero cells) and satisfies
the uniqueness property is returned exactly as is: every execution of the
solver (any parallel-depth configuration) returns precisely that grid, and
the sequential top-level run does as well. -/
theorem run_full_valid_id {N PD : Nat} {g : SudokuMap N}
    (hfull : ∀ a < N, ∀ b < N, g.getElem a b ≠ 0) (_hlines : LinesOk N g) :
    (∀ r, RunRel N PD g 0 0 1 r ↔ r = some g) ∧ runTop N g = some g := by
  constructor
  · intro r
    constructor
    · intro h
      exact runRel_full_eq h hfull (by omega)
    · rintro rfl
      exact runRel_full hfull (fuelFor N) 0 0 1 (mu_lt_fuelFor N 0 0) (by omega)
  · exact runF_full hfull (fuelFor N) 0 0 1 (mu_lt_fuelFor N 0 0) (by omega)

theorem run_full_valid_id_witness :
    runTop 4 solved4 = some solved4 ∧ RunRel 4 1 solved4 0 0 1 (some solved4) := by
  have h := @run_full_valid_id 4 1 solved4 (by decide) (by decide)
  exact ⟨h.2, (h.1 (some solved4)).mpr rfl⟩

/-- C7: constructing a SudokuMap of dimension N from a flat sequence whose
length is not N * N fails with the DimensionMismatch condition and the
whole pipeline yields nothing, before any search step runs; a sequence of
length exactly N * N is accepted unchanged whatever values it contains,
and the pipeline proceeds to the search. -/
theorem make_dimension_check (N : Nat) (l : List Int) :
    (l.length = N * N →
      SudokuMap.make N l = some ⟨l⟩ ∧ solveList N l = some (runTop N ⟨l⟩)) ∧
    (l.length ≠ N * N →
      SudokuMap.make N l = none ∧ solveList N l = none) := by
  unfold solveList SudokuMap.make
  constructor
  · intro h
    rw [if_pos h]
    exact ⟨rfl, rfl⟩
  · intro h
    rw [if_neg h]
    exact ⟨rfl, rfl⟩

theorem make_dimension_check_witness :
    SudokuMap.make 4 (List.replicate 16 0) = some ⟨List.replicate 16 0⟩ ∧
      SudokuMap.make 4 (List.replicate 15 0) = none ∧
      solveList 4 (List.replicate 15 0) = none :=
  ⟨((make_dimension_check 4 (List.replicate 16 0)).1 (by decide)).1,
    ((make_dimension_check 4 (List.replicate 15 0)).2 (by decide)).1,
    ((make_dimension_check 4 (List.replicate 15 0)).2 (by decide)).2⟩

/-- C9: every cell that is non-zero in the input grid holds the same value
in any grid returned by the search: the solver only assigns to cells that
were zero and never overwrites a pre-filled cell. -/
theorem run_preserves_prefilled {N PD : Nat} {g s : SudokuMap N}
    (hWf : g.Wf) (hrun : RunRel N PD g 0 0 1 (some s)) :
    ExtendsMap N g s :=
  (runRel_invariant hrun s rfl hWf).1.2.1

theorem run_preserves_prefilled_witness : ExtendsMap 4 solved4 solved4 :=
  run_preserves_prefilled (by decide) (runRel_solved4 1)

theorem runRelSt_post_eq {N PD : Nat} {g : SudokuMap N} {x y d : Nat}
    {r : Option (SudokuMap N)} {g2 : SudokuMap N}
    (h : RunRelSt N PD g x y d r g2) : g2 = g := by
  induction h with
  | solved _ _ => rfl
  | advance _ _ _ ih => exact ih
  | skip _ _ _ ih => exact ih
  | parFound _ _ _ _ _ _ _ _ => rfl
  | parNone _ _ _ _ _ => rfl
  | seqFound _ _ _ _ _ _ _ _ _ _ => rfl
  | seqNone _ _ _ _ _ => rfl

theorem runRelSt_to_runRel {N PD : Nat} {g : SudokuMap N} {x y d : Nat}
    {r : Option (SudokuMap N)} {g2 : SudokuMap N}
    (h : RunRelSt N PD g x y d r g2) : RunRel N PD g x y d r := by
  induction h with
  | solved hx hy => exact RunRel.solved hx hy
  | advance hx hy _ ih => exact RunRel.advance hx hy ih
  | skip hx hz _ ih => exact RunRel.skip hx hz ih
  | parFound hx hz hdp h1i hiN hci _ ih =>
    exact RunRel.parFound hx hz hdp h1i hiN hci ih
  | parNone hx hz hdp _ ih =>
    exact RunRel.parNone hx hz hdp fun i h1 h2 hc => ih i h1 h2 hc
  | seqFound hx hz hpd h1i hiN hci _ _ ihbef ihsub =>
    exact RunRel.seqFound hx hz hpd h1i hiN hci
      (fun j h1 h2 hc => ihbef j h1 h2 hc) ihsub
  | seqNone hx hz hpd _ ih =>
    exact RunRel.seqNone hx hz hpd fun i h1 h2 hc => ih i h1 h2 hc

theorem runRel_to_runRelSt {N PD : Nat} {g : SudokuMap N} {x y d : Nat}
    {r : Option (SudokuMap N)} (h : RunRel N PD g x y d r) :
    RunRelSt N PD g x y d r g := by
  induction h with
  | solved hx hy => exact RunRelSt.solved hx hy
  | advance hx hy _ ih => exact RunRelSt.advance hx hy ih
  | skip hx hz _ ih => exact RunRelSt.skip hx hz ih
  | parFound hx hz hdp h1i hiN hci _ ih =>
    exact RunRelSt.parFound hx hz hdp h1i hiN hci ih
  | parNone hx hz hdp _ ih =>
    exact RunRelSt.parNone hx hz hdp fun i h1 h2 hc => ih i h1 h2 hc
  | seqFound hx hz hpd h1i hiN hci _ _ ihbef ihsub =>
    exact RunRelSt.seqFound hx hz hpd h1i hiN hci
      (fun j h1 h2 hc => ihbef j h1 h2 hc) ihsub
  | seqNone hx hz hpd _ ih =>
    exact RunRelSt.seqNone hx hz hpd fun i h1 h2 hc => ih i h1 h2 hc

/-- C10: for every call to the search, sequential or parallel, the
caller's grid argument is unchanged when the call returns. In the
state-aware relational model RunRelSt of SudokuSolver::run — which
includes the depth < maxParallelizationDepth_ parallel branch, and whose
last index is the value of the caller-visible by-reference argument when
the call returns — every derivation's post-state equals the pre-call
grid: placements happen on firstprivate task copies in the parallel
branch and on the explicit newSudoku copy in the sequential branch. The
state-aware model produces exactly the results of the result-only model
RunRel, and the sequential state-aware function runFSt likewise returns
its argument unchanged together with the runF result. -/
theorem run_frame_caller_grid {N PD : Nat} :
    (∀ (g : SudokuMap N) (x y d : Nat) (r : Option (SudokuMap N)) (g2 : SudokuMap N),
      RunRelSt N PD g x y d r g2 → g2 = g) ∧
    (∀ (g : SudokuMap N) (x y d : Nat) (r : Option (SudokuMap N)),
      RunRel N PD g x y d r ↔ ∃ g2, RunRelSt N PD g x y d r g2) ∧
    (∀ (fuel : Nat) (g : SudokuMap N) (x y d : Nat),
      (runFSt N fuel g x y d).2 = g ∧ (runFSt N fuel g x y d).1 = runF N fuel g x y d) := by
  refine ⟨?_, ?_, ?_⟩
  · intro g x y d r g2 h
    exact runRelSt_post_eq h
  · intro g x y d r
    constructor
    · intro h
      exact ⟨g, runRel_to_runRelSt h⟩
    · rintro ⟨g2, h⟩
      exact runRelSt_to_runRel h
  · intro fuel g x y d
    exact runFSt_frame fuel g x y d

theorem run_frame_caller_grid_witness :
    allOnes4 = allOnes4 ∧
      (∃ g2, RunRelSt 4 2 allOnes4 0 0 1 (some allOnes4) g2) ∧
      (runFSt 4 (fuelFor 4) solved4 0 0 1).2 = solved4 := by
  have h := @run_frame_caller_grid 4 2
  have hst : RunRelSt 4 2 allOnes4 0 0 1 (some allOnes4) allOnes4 :=
    runRel_to_runRelSt (runRel_allOnes4 2)
  refine ⟨h.1 allOnes4 0 0 1 (some allOnes4) allOnes4 hst, ?_,
    (h.2.2 (fuelFor 4) solved4 0 0 1).1⟩
  exact (h.2.1 allOnes4 0 0 1 (some allOnes4)).mp (runRel_allOnes4 2)
